import Mathlib

/-!
Shallow embedding of `src/sync/rcu/rcu-linked-list.c`: an RCU-protected
linked list of `struct dog` entries, a sysfs-style store/show attribute
interface, a periodic timer that removes the head entry, and module
init/exit. Strings are modelled as `List Char`; the kernel integer
parsers (`kstrtoint` and friends) are embedded following the kernel's
`lib/kstrtox.c` semantics the module relies on; machine-width bounds
(`2^64`, `2^63`, `2^31`) appear explicitly where the kernel checks them.
-/

set_option linter.unusedVariables false

deriving instance DecidableEq for Except

/-- `#define DOG_ENTRY_NBYTES 64` (rcu-linked-list.c line 30). -/
def DOG_ENTRY_NBYTES : Nat := 64

/-- `struct dog` (rcu-linked-list.c lines 33-43): breed name, age in
months, and whether training is easy. The `list_head`/`rcu_head` link
fields are represented by the containing list structures of the model. -/
structure Dog where
  breed : List Char
  age : Int
  training_easy : Bool
deriving DecidableEq, Repr

/-- `kstrndup(buf, DOG_ENTRY_NBYTES, GFP_KERNEL)`: duplicate at most the
first `n` characters of the input (inputs carry no embedded NUL). -/
def kstrndup (s : List Char) (n : Nat) : List Char := s.take n

/-- The token sequence produced by the loop
`while ((str_token = strsep(&ibuf, ",")) != NULL)` (lines 111-112):
`strsep` splits at each comma and yields one (possibly empty) token per
segment, one final token for the tail, and a single empty token for the
empty string. -/
def strsep_split : List Char → List (List Char)
  | [] => [[]]
  | c :: cs =>
    if c = ',' then [] :: strsep_split cs
    else
      match strsep_split cs with
      | t :: ts => (c :: t) :: ts
      | [] => [[c]]

/-- Value of a hexadecimal digit character, following the kernel's
`_parse_integer`: a non-digit gets value 16, which is `≥ base` for every
base the module uses, so parsing stops there. -/
def digitVal (c : Char) : Nat :=
  if '0' ≤ c ∧ c ≤ '9' then c.toNat - '0'.toNat
  else if 'a' ≤ c ∧ c ≤ 'f' then c.toNat - 'a'.toNat + 10
  else if 'A' ≤ c ∧ c ≤ 'F' then c.toNat - 'A'.toNat + 10
  else 16

/-- The digit-consuming loop of the kernel's `_parse_integer`: consume
characters while their digit value is below `base`, accumulating the
exact value (the kernel keeps it modulo `2^64` with an overflow flag;
here the value is exact and the overflow check compares against `2^64`).
Returns (value, number of digits consumed, rest of the string). -/
def parseDigits (base : Nat) (acc : Nat) (k : Nat) : List Char → Nat × Nat × List Char
  | [] => (acc, k, [])
  | c :: cs =>
    if digitVal c < base then parseDigits base (acc * base + digitVal c) (k + 1) cs
    else (acc, k, c :: cs)

/-- `if (s[0] == '+') s++` at the start of the kernel's `_kstrtoull`. -/
def skipPlus (s : List Char) : List Char :=
  if s.head? = some '+' then s.tail else s

/-- `if (*s == '\n') s++` after the digits in the kernel's `_kstrtoull`:
one trailing newline is tolerated. -/
def skipNewline (s : List Char) : List Char :=
  if s.head? = some '\n' then s.tail else s

/-- The kernel's `_kstrtoull`: optional leading `+`, a nonempty digit
string in the given base, an optional single trailing newline, nothing
else; `-ERANGE` (-34) on 64-bit overflow, `-EINVAL` (-22) otherwise on
failure. -/
def kstrtoull (base : Nat) (s : List Char) : Except Int Nat :=
  let r := parseDigits base 0 0 (skipPlus s)
  if 2 ^ 64 ≤ r.1 then .error (-34)
  else if r.2.1 = 0 then .error (-22)
  else if skipNewline r.2.2 = [] then .ok r.1
  else .error (-22)

/-- The kernel's `kstrtoll`: a leading `-` negates the unsigned parse,
with the signed-64-bit range checks the kernel performs by casting. -/
def kstrtoll (base : Nat) (s : List Char) : Except Int Int :=
  if s.head? = some '-' then
    match kstrtoull base s.tail with
    | .error e => .error e
    | .ok v => if 2 ^ 63 < v then .error (-34) else .ok (-(v : Int))
  else
    match kstrtoull base s with
    | .error e => .error e
    | .ok v => if 2 ^ 63 ≤ v then .error (-34) else .ok (v : Int)

/-- The kernel's `kstrtoint`: parse as `long long`, then `-ERANGE`
unless the value fits in a 32-bit `int`. -/
def kstrtoint (base : Nat) (s : List Char) : Except Int Int :=
  match kstrtoll base s with
  | .error e => .error e
  | .ok v => if v < -(2 ^ 31) ∨ 2 ^ 31 - 1 < v then .error (-34) else .ok v

/-- The input-handling prefix of `dog_attr_store` (lines 107-130): cap
the input at `DOG_ENTRY_NBYTES` via `kstrndup`, tokenize at commas with
`strsep`, reject fewer than 3 tokens with `-EINVAL`, parse the age in
base 10 and the training flag in base 2 with `kstrtoint`, and build the
new entry (`training_easy = dog_training ? true : false`). Note the C
code stores the tokens into a fixed `char *dog_attr[3]` while `idx` is
incremented without bound, so a 4th token is written out of bounds; the
model keeps all tokens and, like the C code past that write, uses the
first three. Allocation failure (`-ENOMEM`) is not modelled. -/
def dog_parse (buf : List Char) : Except Int Dog :=
  let ibuf := kstrndup buf DOG_ENTRY_NBYTES
  let dog_attr := strsep_split ibuf
  if dog_attr.length < 3 then .error (-22)
  else
    match kstrtoint 10 (dog_attr.getD 1 []) with
    | .error e => .error e
    | .ok dog_age =>
      match kstrtoint 2 (dog_attr.getD 2 []) with
      | .error e => .error e
      | .ok dog_training =>
        .ok { breed := dog_attr.getD 0 []
              age := dog_age
              training_easy := decide (dog_training ≠ 0) }

/-- The module's mutable state: the list (`dog_list`, head first), the
manually maintained size counter (`dog_list_size`), the entries handed
to `kfree_rcu` and not yet reclaimed, and the removal timer
(`removal_timer`): whether it is pending and its expiration time. -/
structure ModState where
  dog_list : List Dog
  dog_list_size : Nat
  pending : List Dog
  timer_pending : Bool
  timer_expires : Nat
  kobj_alive : Bool
deriving DecidableEq, Repr

/-- State after `rcu_linked_list_init` at time 0: empty list, size 0,
sysfs kobject created, timer armed for 5000 ms from now (line 229). -/
def initState : ModState :=
  { dog_list := [], dog_list_size := 0, pending := [], timer_pending := true,
    timer_expires := 5000, kobj_alive := true }

/-- `dog_attr_store` (lines 95-149): parse the input; on failure return
the error with the state untouched; on success append the new entry at
the tail (`list_add_tail_rcu`), increment `dog_list_size` (both under
the writer spinlock), and return `count`. -/
def dog_attr_store (buf : List Char) (count : Nat) (s : ModState) :
    Except Int Nat × ModState :=
  match dog_parse buf with
  | .error e => (.error e, s)
  | .ok entry =>
    (.ok count,
     { s with dog_list := s.dog_list ++ [entry],
              dog_list_size := s.dog_list_size + 1 })

/-- The line `snprintf` formats for one entry:
`"%s %d %s\n"` with the breed, the age, and `"true"`/`"false"`. -/
def formatLine (d : Dog) : List Char :=
  d.breed ++ [' '] ++ (toString d.age).data ++ [' ']
    ++ (if d.training_easy then "true".data else "false".data) ++ ['\n']

/-- Return value of `dog_attr_show` (lines 71-89): the loop does
`nbytes += snprintf(&buf[nbytes], DOG_ENTRY_NBYTES, ...)` per entry, and
`snprintf` returns the full formatted length even when it truncates, so
the returned byte count is the sum of the full line lengths. -/
def dog_attr_show : List Dog → Nat
  | [] => 0
  | d :: ds => (formatLine d).length + dog_attr_show ds

/-- The bytes one `snprintf(dst, DOG_ENTRY_NBYTES, ...)` call leaves in
the output buffer across the span the caller advances over (the full
line length): if the line fits in 63 characters it is written whole
(the terminating NUL is overwritten by the next call or lies past the
returned count); otherwise 63 characters plus the terminating NUL are
written and the remaining span is left untouched (`none`). -/
def snprintf_chunk (line : List Char) : List (Option Char) :=
  if line.length < DOG_ENTRY_NBYTES then line.map some
  else (line.take 63).map some
    ++ some (Char.ofNat 0) :: List.replicate (line.length - 64) none

/-- The output buffer of `dog_attr_show` over the `nbytes` positions its
return value covers: the concatenation of each entry's `snprintf` span,
in list order (`list_for_each_entry_rcu` traverses head to tail). -/
def dog_attr_show_buf (l : List Dog) : List (Option Char) :=
  (l.map (fun d => snprintf_chunk (formatLine d))).flatten

/-- Number of buffer bytes `dog_attr_show` actually writes within the
span covered by its return value. -/
def showBytesWritten (l : List Dog) : Nat :=
  ((dog_attr_show_buf l).filterMap id).length

/-- `timer_remove_dog` (lines 177-207): if the list is non-empty, under
the writer spinlock unlink the first entry (`list_del_rcu` on
`list_first_entry`) and hand it to `kfree_rcu`; the size counter is not
touched. In every case re-arm the timer for 5000 ms from now
(`mod_timer`, line 206). -/
def timer_remove_dog (now : Nat) (s : ModState) : ModState :=
  let s' :=
    match s.dog_list with
    | [] => s
    | entry :: rest =>
      { s with dog_list := rest, pending := s.pending ++ [entry] }
  { s' with timer_pending := true, timer_expires := now + 5000 }

/-- `rcu_linked_list_exit` (lines 243-253): `del_timer_sync` cancels the
timer (waiting for a running handler), `kobject_put` releases the sysfs
directory. Nothing else: the list, the size counter and the entries
pending reclamation are left as they are, and no `rcu_barrier`-style
drain is performed. -/
def rcu_linked_list_exit (s : ModState) : ModState :=
  { s with timer_pending := false, kobj_alive := false }

/-- A writer-side operation, serialized by `list_update_lock`: a sysfs
store of some input, or a firing of the removal timer at some time. -/
inductive WriterOp where
  | store (buf : List Char) (count : Nat)
  | tick (now : Nat)
deriving DecidableEq, Repr

/-- Effect of one writer-side operation on the module state. -/
def writerStep (s : ModState) (op : WriterOp) : ModState :=
  match op with
  | .store buf count => (dog_attr_store buf count s).2
  | .tick now => timer_remove_dog now s

/-- Run a serialized sequence of writer-side operations. -/
def runTrace (s : ModState) : List WriterOp → ModState
  | [] => s
  | op :: ops => runTrace (writerStep s op) ops

/-- The entries appended by the successful stores of a trace, in order
(success of `dog_attr_store` depends only on its input). -/
def storedEntries : List WriterOp → List Dog
  | [] => []
  | .store buf _ :: ops =>
    match dog_parse buf with
    | .ok e => e :: storedEntries ops
    | .error _ => storedEntries ops
  | .tick _ :: ops => storedEntries ops

/-- Number of completed appends (successful stores) in a trace. -/
def completedAppends : List WriterOp → Nat
  | [] => 0
  | .store buf _ :: ops =>
    (if (dog_parse buf).isOk then 1 else 0) + completedAppends ops
  | .tick _ :: ops => completedAppends ops

/-- Number of completed removals in a trace run from `s`: timer firings
that found the list non-empty and unlinked its head. -/
def tickRemovals (s : ModState) : List WriterOp → Nat
  | [] => 0
  | op :: ops =>
    (match op with
     | .tick _ => if s.dog_list = [] then 0 else 1
     | .store _ _ => 0) + tickRemovals (writerStep s op) ops

/-!
Modelled from the spec: the RCU read/reclaim mechanism itself
(`rcu_read_lock`/`rcu_read_unlock`, the grace-period machinery behind
`list_del_rcu` + `kfree_rcu`) is kernel infrastructure the module calls
into and is not part of the repository's sources. Following the spec's
concurrency model (readers in read-side critical sections may hold
references into the list; a retired entry is freed only once every
read-side critical section active at retirement has ended), the writer
operations of the module and the reader/reclaimer transitions are
interleaved as a transition system over entry identifiers.
-/

/-- Modelled from the spec: global state of the interleaved system.
`nextId` numbers appended entries; `linked` is `dog_list` as entry ids
(head first); `readers` are the open read-side critical sections, each
with the ids it may still hold references to; `pending` are retired
entries (`kfree_rcu`) tagged with the readers active at retirement;
`freed` are reclaimed entries. -/
structure RcuState where
  nextId : Nat
  linked : List Nat
  readers : List (Nat × List Nat)
  pending : List (Nat × List Nat)
  freed : List Nat
deriving DecidableEq, Repr

/-- Initial state: empty list, no readers, nothing retired or freed. -/
def rcuInit : RcuState :=
  { nextId := 0, linked := [], readers := [], pending := [], freed := [] }

/-- Modelled from the spec: one interleaving step. `append` is the
store path's `list_add_tail_rcu`; `tick` is `timer_remove_dog`'s
`list_del_rcu` + `kfree_rcu` of the head; `beginRead`/`endRead` bracket
a reader's `rcu_read_lock`/`rcu_read_unlock`; `reclaim` is the
grace-period callback freeing a retired entry. -/
inductive RcuOp where
  | append
  | tick
  | beginRead (r : Nat)
  | endRead (r : Nat)
  | reclaim (e : Nat)
deriving DecidableEq, Repr

/-- Ids of the readers currently inside a read-side critical section. -/
def activeIds (s : RcuState) : List Nat := s.readers.map Prod.fst

/-- Modelled from the spec: effect of one interleaving step. An
appended entry becomes visible to ongoing traversals (tail publish); a
removed head is retired together with the set of currently active
readers; `reclaim` frees a retired entry only when every reader active
at its retirement has ended its critical section (the grace-period
guarantee of `kfree_rcu`), and otherwise does nothing. -/
def rcuStep (s : RcuState) : RcuOp → RcuState
  | .append =>
    { s with nextId := s.nextId + 1,
             linked := s.linked ++ [s.nextId],
             readers := s.readers.map (fun p => (p.1, p.2 ++ [s.nextId])) }
  | .tick =>
    match s.linked with
    | [] => s
    | hd :: tl =>
      { s with linked := tl, pending := s.pending ++ [(hd, activeIds s)] }
  | .beginRead r =>
    if r ∈ activeIds s then s
    else { s with readers := s.readers ++ [(r, s.linked)] }
  | .endRead r =>
    { s with readers := s.readers.filter (fun p => p.1 != r) }
  | .reclaim e =>
    match s.pending.find? (fun p => p.1 == e) with
    | none => s
    | some (_, rs) =>
      if rs.all (fun r => decide (r ∉ activeIds s)) then
        { s with pending := s.pending.filter (fun p => p.1 != e),
                 freed := s.freed ++ [e] }
      else s

/-- Run an interleaving from a state. -/
def runRcu (s : RcuState) : List RcuOp → RcuState
  | [] => s
  | op :: ops => runRcu (rcuStep s op) ops

/-- Inductive invariant of the RCU system: every reference a reader
holds is either still linked or retired with that reader recorded in
its grace-period set; ids are bounded by `nextId`; linked, pending and
freed ids are pairwise disjoint and duplicate-free where needed. -/
structure RcuInv (s : RcuState) : Prop where
  holders : ∀ p ∈ s.readers, ∀ e ∈ p.2,
      e ∈ s.linked ∨ ∃ rs, (e, rs) ∈ s.pending ∧ p.1 ∈ rs
  linked_lt : ∀ e ∈ s.linked, e < s.nextId
  pending_lt : ∀ p ∈ s.pending, p.1 < s.nextId
  freed_lt : ∀ e ∈ s.freed, e < s.nextId
  linked_pending : ∀ e ∈ s.linked, e ∉ s.pending.map Prod.fst
  linked_freed : ∀ e ∈ s.linked, e ∉ s.freed
  pending_freed : ∀ e ∈ s.pending.map Prod.fst, e ∉ s.freed
  linked_nodup : s.linked.Nodup
  pending_nodup : (s.pending.map Prod.fst).Nodup

theorem rcuInv_init : RcuInv rcuInit := by
  constructor <;> simp [rcuInit]

/-- In a list of keyed pairs whose keys are duplicate-free, a key
determines its value. -/
theorem nodup_fst_eq {l : List (Nat × List Nat)} (h : (l.map Prod.fst).Nodup)
    {a : Nat} {b c : List Nat} (hb : (a, b) ∈ l) (hc : (a, c) ∈ l) : b = c := by
  induction l with
  | nil => cases hb
  | cons x t ih =>
    rw [List.map_cons, List.nodup_cons] at h
    rcases List.mem_cons.1 hb with rfl | hbt
    · rcases List.mem_cons.1 hc with hcx | hct
      · exact (Prod.mk.injEq _ _ _ _ ▸ hcx.symm).2
      · exact absurd (List.mem_map_of_mem Prod.fst hct) h.1
    · rcases List.mem_cons.1 hc with rfl | hct
      · exact absurd (List.mem_map_of_mem Prod.fst hbt) h.1
      · exact ih h.2 hbt hct

theorem rcuStep_inv {s : RcuState} (op : RcuOp) (h : RcuInv s) :
    RcuInv (rcuStep s op) := by
  cases op with
  | append =>
    refine ⟨?_, ?_, ?_, ?_, ?_, ?_, ?_, ?_, ?_⟩ <;>
      simp only [rcuStep]
    · intro p hp e he
      obtain ⟨q, hq, rfl⟩ := List.mem_map.1 hp
      rcases List.mem_append.1 he with he | he
      · rcases h.holders q hq e he with hl | ⟨rs, hrs, hin⟩
        · exact Or.inl (List.mem_append_left _ hl)
        · exact Or.inr ⟨rs, hrs, hin⟩
      · exact Or.inl (List.mem_append_right _ he)
    · intro e he
      rcases List.mem_append.1 he with he | he
      · exact Nat.lt_succ_of_lt (h.linked_lt e he)
      · simp only [List.mem_singleton] at he
        omega
    · exact fun p hp => Nat.lt_succ_of_lt (h.pending_lt p hp)
    · exact fun e he => Nat.lt_succ_of_lt (h.freed_lt e he)
    · intro e he
      rcases List.mem_append.1 he with he | he
      · exact h.linked_pending e he
      · simp only [List.mem_singleton] at he
        subst he
        intro hmem
        obtain ⟨p, hp, hfst⟩ := List.mem_map.1 hmem
        have := h.pending_lt p hp
        omega
    · intro e he
      rcases List.mem_append.1 he with he | he
      · exact h.linked_freed e he
      · simp only [List.mem_singleton] at he
        subst he
        intro hmem
        have := h.freed_lt _ hmem
        omega
    · exact h.pending_freed
    · rw [List.nodup_append]
      refine ⟨h.linked_nodup, List.nodup_singleton _, ?_⟩
      intro a ha hb
      simp only [List.mem_singleton] at hb
      subst hb
      exact absurd (h.linked_lt _ ha) (by omega)
    · exact h.pending_nodup
  | tick =>
    cases hl : s.linked with
    | nil => simpa only [rcuStep, hl] using h
    | cons hd tl =>
      have hhd : hd ∈ s.linked := by rw [hl]; exact List.mem_cons_self hd tl
      refine ⟨?_, ?_, ?_, ?_, ?_, ?_, ?_, ?_, ?_⟩ <;>
        simp only [rcuStep, hl]
      · intro p hp e he
        rcases h.holders p hp e he with hlink | ⟨rs, hrs, hin⟩
        · rw [hl] at hlink
          rcases List.mem_cons.1 hlink with rfl | htl
          · refine Or.inr ⟨activeIds s, List.mem_append_right _ ?_, ?_⟩
            · exact List.mem_singleton.2 rfl
            · exact List.mem_map_of_mem Prod.fst hp
          · exact Or.inl htl
        · exact Or.inr ⟨rs, List.mem_append_left _ hrs, hin⟩
      · intro e he
        exact h.linked_lt e (by rw [hl]; exact List.mem_cons_of_mem hd he)
      · intro p hp
        rcases List.mem_append.1 hp with hp | hp
        · exact h.pending_lt p hp
        · simp only [List.mem_singleton] at hp
          subst hp
          exact h.linked_lt hd hhd
      · exact h.freed_lt
      · intro e he hmem
        have hel : e ∈ s.linked := by rw [hl]; exact List.mem_cons_of_mem hd he
        rw [List.map_append] at hmem
        rcases List.mem_append.1 hmem with hmem | hmem
        · exact h.linked_pending e hel hmem
        · simp only [List.map_cons, List.map_nil, List.mem_singleton] at hmem
          subst hmem
          have hnd := h.linked_nodup
          rw [hl, List.nodup_cons] at hnd
          exact hnd.1 he
      · intro e he
        exact h.linked_freed e (by rw [hl]; exact List.mem_cons_of_mem hd he)
      · intro e he
        rw [List.map_append] at he
        rcases List.mem_append.1 he with he | he
        · exact h.pending_freed e he
        · simp only [List.map_cons, List.map_nil, List.mem_singleton] at he
          subst he
          exact h.linked_freed _ hhd
      · have := h.linked_nodup
        rw [hl, List.nodup_cons] at this
        exact this.2
      · rw [List.map_append, List.nodup_append]
        refine ⟨h.pending_nodup, by simp, ?_⟩
        intro a ha hb
        simp only [List.map_cons, List.map_nil, List.mem_singleton] at hb
        subst hb
        exact h.linked_pending a hhd ha
  | beginRead r =>
    simp only [rcuStep]
    split
    · exact h
    · refine ⟨?_, h.linked_lt, h.pending_lt, h.freed_lt, h.linked_pending,
        h.linked_freed, h.pending_freed, h.linked_nodup, h.pending_nodup⟩
      intro p hp e he
      rcases List.mem_append.1 hp with hp | hp
      · exact h.holders p hp e he
      · simp only [List.mem_singleton] at hp
        subst hp
        exact Or.inl he
  | endRead r =>
    refine ⟨?_, h.linked_lt, h.pending_lt, h.freed_lt, h.linked_pending,
      h.linked_freed, h.pending_freed, h.linked_nodup, h.pending_nodup⟩
    intro p hp e he
    exact h.holders p (List.mem_of_mem_filter hp) e he
  | reclaim e =>
    cases hf : s.pending.find? (fun p => p.1 == e) with
    | none => simpa only [rcuStep, hf] using h
    | some q =>
      obtain ⟨e', rs⟩ := q
      have hmem : (e', rs) ∈ s.pending := List.mem_of_find?_eq_some hf
      have he' : e' = e := by
        have := List.find?_some hf
        simpa using this
      subst he'
      simp only [rcuStep, hf]
      split
      · next hall =>
        have hquiet : ∀ r ∈ rs, r ∉ activeIds s := by
          intro r hr
          have := List.all_eq_true.1 hall r hr
          simpa using this
        refine ⟨?_, h.linked_lt, ?_, ?_, ?_, ?_, ?_, h.linked_nodup, ?_⟩
        · intro p hp e₀ he₀
          rcases h.holders p hp e₀ he₀ with hlink | ⟨rs', hrs', hin⟩
          · exact Or.inl hlink
          · by_cases heq : e₀ = e'
            · subst heq
              have : rs' = rs := nodup_fst_eq h.pending_nodup hrs' hmem
              subst this
              exact absurd (List.mem_map_of_mem Prod.fst hp) (hquiet p.1 hin)
            · refine Or.inr ⟨rs', List.mem_filter.2 ⟨hrs', ?_⟩, hin⟩
              simpa using heq
        · exact fun p hp => h.pending_lt p (List.mem_of_mem_filter hp)
        · intro x hx
          rcases List.mem_append.1 hx with hx | hx
          · exact h.freed_lt x hx
          · simp only [List.mem_singleton] at hx
            subst hx
            exact h.pending_lt _ hmem
        · intro x hx hx'
          obtain ⟨p, hp, hfst⟩ := List.mem_map.1 hx'
          exact h.linked_pending x hx
            (List.mem_map.2 ⟨p, List.mem_of_mem_filter hp, hfst⟩)
        · intro x hx hx'
          rcases List.mem_append.1 hx' with hx' | hx'
          · exact h.linked_freed x hx hx'
          · simp only [List.mem_singleton] at hx'
            subst hx'
            exact h.linked_pending x hx (List.mem_map_of_mem Prod.fst hmem)
        · intro x hx hx'
          obtain ⟨p, hp, hfst⟩ := List.mem_map.1 hx
          have hpp : p ∈ s.pending := List.mem_of_mem_filter hp
          have hne : p.1 ≠ e' := by
            have := List.of_mem_filter hp
            simpa using this
          rcases List.mem_append.1 hx' with hx' | hx'
          · exact h.pending_freed x (List.mem_map.2 ⟨p, hpp, hfst⟩) hx'
          · simp only [List.mem_singleton] at hx'
            exact hne (hfst.symm ▸ hx' ▸ rfl)
        · exact List.Nodup.sublist
            (List.Sublist.map Prod.fst (List.filter_sublist s.pending))
            h.pending_nodup
      · exact h

theorem runRcu_inv (ops : List RcuOp) :
    ∀ s : RcuState, RcuInv s → RcuInv (runRcu s ops) := by
  induction ops with
  | nil => exact fun s h => h
  | cons op ops ih => exact fun s h => ih _ (rcuStep_inv op h)

/-- C3: For every Entry and every read-side critical section that began
before that Entry was unlinked from the list, the Entry's memory is not
freed until that read-side critical section has ended — over every
interleaving of writer operations, reader critical sections and
grace-period reclamation, no active reader holds a reference to a freed
entry. -/
theorem rcu_no_use_after_free (ops : List RcuOp) (p : Nat × List Nat) (e : Nat)
    (hp : p ∈ (runRcu rcuInit ops).readers) (he : e ∈ p.2) :
    e ∉ (runRcu rcuInit ops).freed := by
  have hinv := runRcu_inv ops rcuInit rcuInv_init
  intro hfreed
  rcases hinv.holders p hp e he with hl | ⟨rs, hrs, _⟩
  · exact hinv.linked_freed e hl hfreed
  · exact hinv.pending_freed e (List.mem_map_of_mem Prod.fst hrs) hfreed

/-- Witness for C3: after append, a reader opening a critical section,
removal of the entry, and an attempted reclamation, the reader still
holds entry 0 and entry 0 is still not freed (the reclaim is blocked by
the active reader). -/
theorem rcu_no_use_after_free_witness :
    (0, [0]) ∈ (runRcu rcuInit
        [.append, .beginRead 0, .tick, .reclaim 0]).readers ∧
    0 ∉ (runRcu rcuInit [.append, .beginRead 0, .tick, .reclaim 0]).freed :=
  ⟨by decide,
   rcu_no_use_after_free [.append, .beginRead 0, .tick, .reclaim 0] (0, [0]) 0
     (by decide) (by decide)⟩

/-- C1: the claim that `dog_list_size` equals completed appends minus
completed removals fails on the code: `timer_remove_dog` unlinks the
head without decrementing `dog_list_size` (contrary to the comment at
lines 63-64 that the counter "must be manually updated in every
insertion/removal"). After one successful store and one timer removal,
the list is empty, one append and one removal completed, yet the size
counter still reads 1 instead of 1 - 1 = 0. -/
theorem dog_list_size_not_decremented :
    completedAppends [WriterOp.store "Golden,3,1".data 10, WriterOp.tick 6000] = 1 ∧
    tickRemovals initState
      [WriterOp.store "Golden,3,1".data 10, WriterOp.tick 6000] = 1 ∧
    (runTrace initState
      [WriterOp.store "Golden,3,1".data 10, WriterOp.tick 6000]).dog_list = [] ∧
    (runTrace initState
      [WriterOp.store "Golden,3,1".data 10, WriterOp.tick 6000]).dog_list_size = 1 ∧
    (runTrace initState
      [WriterOp.store "Golden,3,1".data 10, WriterOp.tick 6000]).dog_list_size ≠
      completedAppends [WriterOp.store "Golden,3,1".data 10, WriterOp.tick 6000] -
        tickRemovals initState
          [WriterOp.store "Golden,3,1".data 10, WriterOp.tick 6000] := by
  decide

/-- C2: the claimed examples do behave as stated — `"OnlyBreed"` (one
field) and `"Pug,x,1"` (non-numeric age) are rejected with a validation
error and leave the state untouched — but the universal claim fails for
wrong field counts above three: `"A,1,1,1"` has four fields, the C code
writes the fourth token past the end of the fixed `char *dog_attr[3]`
array (an out-of-bounds stack write, contradicting the comment at line
29 that the fixed array sizes avoid buffer overflow), the only check is
`idx < 3`, and the store then succeeds and appends an entry instead of
failing. -/
theorem store_field_count_bug :
    (strsep_split (kstrndup "A,1,1,1".data DOG_ENTRY_NBYTES)).length = 4 ∧
    (dog_attr_store "A,1,1,1".data 7 initState).1 = .ok 7 ∧
    (dog_attr_store "A,1,1,1".data 7 initState).2.dog_list =
      [{ breed := "A".data, age := 1, training_easy := true }] ∧
    (dog_attr_store "A,1,1,1".data 7 initState).2.dog_list_size = 1 ∧
    (dog_attr_store "OnlyBreed".data 9 initState).1 = .error (-22) ∧
    (dog_attr_store "OnlyBreed".data 9 initState).2 = initState ∧
    (dog_attr_store "Pug,x,1".data 7 initState).1 = .error (-22) ∧
    (dog_attr_store "Pug,x,1".data 7 initState).2 = initState := by
  decide

/-- C4: writing `"Golden,3,1"` and then reading yields the single
newline-terminated line `"Golden 3 true"` (14 bytes); writing
`"Labrador,12,0"` yields `"Labrador 12 false"` (18 bytes). -/
theorem round_trip_golden_labrador :
    dog_attr_show_buf (dog_attr_store "Golden,3,1".data 10 initState).2.dog_list
      = "Golden 3 true\n".data.map some ∧
    dog_attr_show (dog_attr_store "Golden,3,1".data 10 initState).2.dog_list = 14 ∧
    dog_attr_show_buf (dog_attr_store "Labrador,12,0".data 13 initState).2.dog_list
      = "Labrador 12 false\n".data.map some ∧
    dog_attr_show (dog_attr_store "Labrador,12,0".data 13 initState).2.dog_list
      = 18 := by
  decide

/-- C6: a timer tick on an empty list removes nothing and changes
neither the list, the size counter nor the pending set, and every tick
(empty or not) re-arms the timer for 5000 ms after the current time. -/
theorem timer_empty_noop_reschedules (now : Nat) (s : ModState) :
    (s.dog_list = [] →
      (timer_remove_dog now s).dog_list = s.dog_list ∧
      (timer_remove_dog now s).dog_list_size = s.dog_list_size ∧
      (timer_remove_dog now s).pending = s.pending) ∧
    (timer_remove_dog now s).timer_pending = true ∧
    (timer_remove_dog now s).timer_expires = now + 5000 := by
  constructor
  · intro hempty
    simp [timer_remove_dog, hempty]
  · cases hl : s.dog_list <;> simp [timer_remove_dog, hl]

/-- Witness for C6: a tick at time 0 on the freshly initialized (empty)
state is a no-op on the list and re-arms the timer for time 5000. -/
theorem timer_empty_noop_reschedules_witness :
    ((timer_remove_dog 0 initState).dog_list = initState.dog_list ∧
      (timer_remove_dog 0 initState).dog_list_size = initState.dog_list_size ∧
      (timer_remove_dog 0 initState).pending = initState.pending) ∧
    (timer_remove_dog 0 initState).timer_pending = true ∧
    (timer_remove_dog 0 initState).timer_expires = 0 + 5000 :=
  ⟨(timer_empty_noop_reschedules 0 initState).1 (by decide),
   (timer_empty_noop_reschedules 0 initState).2⟩

/-- C7 counterexample: the claim that shutdown completes only after all
pending retirements are reclaimed fails on the code — `rcu_linked_list_exit`
only cancels the timer and drops the kobject, with no `rcu_barrier`-style
drain. With N = 1 retirement pending at shutdown, exit completes with
the entry still unreclaimed. -/
theorem exit_completes_with_pending :
    ((rcu_linked_list_exit (runTrace initState
        [WriterOp.store "Golden,3,1".data 10, WriterOp.tick 6000])).pending).length
      = 1 ∧
    (rcu_linked_list_exit (runTrace initState
        [WriterOp.store "Golden,3,1".data 10, WriterOp.tick 6000])).pending ≠ [] := by
  decide

/-- C7 amended: shutdown synchronously cancels the removal timer and
releases the sysfs kobject, but performs no drain: entries retired but
not yet reclaimed remain pending when exit returns (they are reclaimed
asynchronously by RCU after shutdown), and entries still linked are not
freed by shutdown at all. -/
theorem exit_cancels_timer_only (s : ModState) :
    (rcu_linked_list_exit s).pending = s.pending ∧
    (rcu_linked_list_exit s).dog_list = s.dog_list ∧
    (rcu_linked_list_exit s).dog_list_size = s.dog_list_size ∧
    (rcu_linked_list_exit s).timer_pending = false ∧
    (rcu_linked_list_exit s).kobj_alive = false := by
  simp [rcu_linked_list_exit]

/-- Structure of the list after any serialized writer trace: since
stores append at the tail and timer ticks unlink the head, the linked
list is always the sequence of successfully appended entries minus a
prefix of length equal to the number of completed removals. -/
theorem runTrace_dog_list (ops : List WriterOp) :
    ∀ s : ModState,
      (runTrace s ops).dog_list
        = (s.dog_list ++ storedEntries ops).drop (tickRemovals s ops) := by
  induction ops with
  | nil => intro s; simp [runTrace, storedEntries, tickRemovals]
  | cons op ops ih =>
    intro s
    cases op with
    | store buf count =>
      cases hp : dog_parse buf with
      | error e =>
        simp [runTrace, writerStep, dog_attr_store, hp, storedEntries,
          tickRemovals, ih]
      | ok d =>
        have := ih { s with dog_list := s.dog_list ++ [d],
                            dog_list_size := s.dog_list_size + 1 }
        simp only [runTrace, writerStep, dog_attr_store, hp, storedEntries,
          tickRemovals, this]
        simp [List.append_assoc]
    | tick now =>
      cases hl : s.dog_list with
      | nil =>
        have h2 := ih { s with timer_pending := true, timer_expires := now + 5000 }
        rw [hl] at h2
        simp [runTrace, writerStep, timer_remove_dog, hl, storedEntries,
          tickRemovals, h2]
      | cons d rest =>
        have h2 := ih { s with dog_list := rest, pending := s.pending ++ [d],
                               timer_pending := true, timer_expires := now + 5000 }
        simp [runTrace, writerStep, timer_remove_dog, hl, storedEntries,
          tickRemovals, h2, Nat.one_add, List.drop_succ_cons]

/-- C5: every successful store links the new entry at the tail
(`list_add_tail_rcu`), every timer removal unlinks the current head
(`list_first_entry` + `list_del_rcu`) and retires it, and consequently
after any serialized writer trace the linked list is the append-ordered
sequence of stored entries minus a prefix — so the entry a removal
takes is always the oldest (earliest-appended) entry still linked. -/
theorem append_tail_remove_head_oldest :
    (∀ (buf : List Char) (count : Nat) (s : ModState) (d : Dog),
      dog_parse buf = .ok d →
      (dog_attr_store buf count s).2.dog_list = s.dog_list ++ [d]) ∧
    (∀ (now : Nat) (s : ModState) (d : Dog) (rest : List Dog),
      s.dog_list = d :: rest →
      (timer_remove_dog now s).dog_list = rest ∧
      (timer_remove_dog now s).pending = s.pending ++ [d]) ∧
    (∀ ops : List WriterOp,
      (runTrace initState ops).dog_list
        = (storedEntries ops).drop (tickRemovals initState ops)) := by
  refine ⟨?_, ?_, ?_⟩
  · intro buf count s d hp
    simp [dog_attr_store, hp]
  · intro now s d rest hl
    simp [timer_remove_dog, hl]
  · intro ops
    have := runTrace_dog_list ops initState
    simpa [initState] using this

/-- The entry parsed from `"Pug,4,1"`. -/
def pugDog : Dog := { breed := "Pug".data, age := 4, training_easy := true }

/-- The entry parsed from `"Golden,3,1"`. -/
def goldenDog : Dog := { breed := "Golden".data, age := 3, training_easy := true }

/-- A state whose list holds just the Pug entry. -/
def onePugState : ModState :=
  { dog_list := [pugDog], dog_list_size := 1, pending := [],
    timer_pending := true, timer_expires := 5000, kobj_alive := true }

/-- A state whose list holds the Pug entry (older, at the head) and the
Golden entry (younger, at the tail). -/
def twoDogState : ModState :=
  { dog_list := [pugDog, goldenDog], dog_list_size := 2, pending := [],
    timer_pending := true, timer_expires := 5000, kobj_alive := true }

/-- Witness for C5: the store of `"Golden,3,1"` appends its entry at
the tail of the one-element list `[pug]`, a tick on that two-element
list removes `pug` (the older entry) and retires it, and the trace
equation holds for a concrete store-store-tick trace. -/
theorem append_tail_remove_head_oldest_witness :
    (dog_attr_store "Golden,3,1".data 10 onePugState).2.dog_list
      = onePugState.dog_list ++ [goldenDog] ∧
    (timer_remove_dog 6000 twoDogState).dog_list = [goldenDog] ∧
    (timer_remove_dog 6000 twoDogState).pending
      = twoDogState.pending ++ [pugDog] ∧
    (runTrace initState [WriterOp.store "Pug,4,1".data 7,
        WriterOp.store "Golden,3,1".data 10, WriterOp.tick 6000]).dog_list
      = (storedEntries [WriterOp.store "Pug,4,1".data 7,
          WriterOp.store "Golden,3,1".data 10, WriterOp.tick 6000]).drop
          (tickRemovals initState [WriterOp.store "Pug,4,1".data 7,
            WriterOp.store "Golden,3,1".data 10, WriterOp.tick 6000]) :=
  ⟨append_tail_remove_head_oldest.1 "Golden,3,1".data 10 onePugState goldenDog
     (by decide),
   (append_tail_remove_head_oldest.2.1 6000 twoDogState pugDog [goldenDog]
     (by decide)).1,
   (append_tail_remove_head_oldest.2.1 6000 twoDogState pugDog [goldenDog]
     (by decide)).2,
   append_tail_remove_head_oldest.2.2 _⟩

/-- C8 counterexample: the claim that the read operation returns the
total number of bytes written fails once an entry's formatted line
exceeds the 64-byte `snprintf` limit: after storing an entry with a
60-character breed, the single line is 68 bytes long, `snprintf`
truncates it to 63 characters plus a NUL (64 bytes written) but returns
68, so `dog_attr_show` returns 68 while only 64 bytes were written. -/
theorem show_return_exceeds_bytes_written :
    dog_attr_show (dog_attr_store (List.replicate 60 'b' ++ ",3,1".data) 64
        initState).2.dog_list = 68 ∧
    showBytesWritten (dog_attr_store (List.replicate 60 'b' ++ ",3,1".data) 64
        initState).2.dog_list = 64 ∧
    dog_attr_show (dog_attr_store (List.replicate 60 'b' ++ ",3,1".data) 64
        initState).2.dog_list ≠
      showBytesWritten (dog_attr_store (List.replicate 60 'b' ++ ",3,1".data) 64
        initState).2.dog_list := by
  decide

/-- The return value of the show loop is the length of the
concatenation of all (untruncated) formatted lines. -/
theorem dog_attr_show_eq_sum (l : List Dog) :
    dog_attr_show l = (l.map formatLine).flatten.length := by
  induction l with
  | nil => rfl
  | cons d ds ih =>
    simp only [dog_attr_show, List.map_cons, List.flatten_cons,
      List.length_append]
    rw [ih]

/-- C8 amended: the read operation visits each linked element once in
list order and formats it as breed, age, `true`/`false`, newline, with
`snprintf` bounded by the fixed 64-byte per-entry limit; its return
value is the sum of the full formatted line lengths, and whenever every
line is at most 63 characters (so none is truncated by the 64-byte
limit) the buffer holds exactly the concatenated lines and the return
value equals the number of bytes written. -/
theorem show_concat_lines (l : List Dog)
    (h : ∀ d ∈ l, (formatLine d).length ≤ 63) :
    dog_attr_show_buf l = ((l.map formatLine).flatten).map some ∧
    dog_attr_show l = (l.map formatLine).flatten.length ∧
    dog_attr_show l = showBytesWritten l := by
  have hbuf : dog_attr_show_buf l = ((l.map formatLine).flatten).map some := by
    induction l with
    | nil => rfl
    | cons d ds ih =>
      have hd := h d (List.mem_cons_self d ds)
      have hchunk : snprintf_chunk (formatLine d) = (formatLine d).map some := by
        rw [snprintf_chunk, if_pos]
        unfold DOG_ENTRY_NBYTES
        omega
      simp only [dog_attr_show_buf, List.map_cons, List.flatten_cons, hchunk,
        List.map_append]
      have := ih (fun x hx => h x (List.mem_cons_of_mem _ hx))
      simp only [dog_attr_show_buf] at this
      rw [this]
  have hsum := dog_attr_show_eq_sum l
  have hid : ∀ x : List Char, (x.map some).filterMap id = x := by
    intro x
    induction x with
    | nil => rfl
    | cons c cs ih => simp [ih]
  have hw : showBytesWritten l = (l.map formatLine).flatten.length := by
    rw [showBytesWritten, hbuf, hid]
  exact ⟨hbuf, hsum, hw ▸ hsum⟩

/-- C9: the write operation parses at most the first 64 bytes of its
input — `kstrndup(buf, DOG_ENTRY_NBYTES, ...)` caps the duplicate
before tokenizing, so the result of a store depends only on the first
64 characters; characters past the cap are silently dropped before
field splitting rather than rejected, as the concrete 66-character
input (whose tail `,x` is cut off) shows by succeeding. -/
theorem store_parses_only_first_64_bytes :
    (∀ (buf : List Char) (count : Nat) (s : ModState),
      dog_attr_store buf count s = dog_attr_store (buf.take 64) count s) ∧
    (List.replicate 60 'b' ++ ",3,1,x".data).length = 66 ∧
    (dog_attr_store (List.replicate 60 'b' ++ ",3,1,x".data) 66 initState).1
      = .ok 66 := by
  refine ⟨?_, by decide, by decide⟩
  intro buf count s
  have hp : dog_parse buf = dog_parse (buf.take 64) := by
    simp only [dog_parse, kstrndup, DOG_ENTRY_NBYTES, List.take_take,
      Nat.min_self]
  unfold dog_attr_store
  rw [hp]

/-- Numeric value of a most-significant-first string of binary digits. -/
def binNat (bs : List Char) : Nat :=
  bs.foldl (fun a c => a * 2 + (if c = '1' then 1 else 0)) 0

/-- On a string made entirely of digits valid for the base, the kernel
digit loop consumes everything and leaves no rest. -/
theorem parseDigits_all (base : Nat) :
    ∀ bs : List Char, (∀ c ∈ bs, digitVal c < base) →
      ∀ acc k, parseDigits base acc k bs
        = (bs.foldl (fun a c => a * base + digitVal c) acc, k + bs.length, []) := by
  intro bs
  induction bs with
  | nil => intro h acc k; simp [parseDigits]
  | cons c cs ih =>
    intro h acc k
    rw [parseDigits, if_pos (h c (List.mem_cons_self c cs)),
      ih (fun x hx => h x (List.mem_cons_of_mem _ hx)) _ _]
    simp only [List.foldl_cons, List.length_cons, Prod.mk.injEq]
    exact ⟨by trivial, by omega, by trivial⟩

/-- On binary digits, the kernel digit values coincide with the bit
values accumulated by `binNat`. -/
theorem foldl_digit_eq_bin :
    ∀ bs : List Char, (∀ c ∈ bs, c = '0' ∨ c = '1') →
      ∀ acc, bs.foldl (fun a c => a * 2 + digitVal c) acc
        = bs.foldl (fun a c => a * 2 + (if c = '1' then 1 else 0)) acc := by
  intro bs
  induction bs with
  | nil => intro h acc; rfl
  | cons c cs ih =>
    intro h acc
    have hd : digitVal c = (if c = '1' then 1 else 0) := by
      rcases h c (List.mem_cons_self c cs) with rfl | rfl <;> decide
    simp only [List.foldl_cons, hd]
    exact ih (fun x hx => h x (List.mem_cons_of_mem _ hx)) _

/-- The binary accumulator is bounded by the digit count. -/
theorem foldl_bin_lt (bs : List Char) :
    ∀ acc, bs.foldl (fun a c => a * 2 + (if c = '1' then 1 else 0)) acc
      < (acc + 1) * 2 ^ bs.length := by
  induction bs with
  | nil => intro acc; simp
  | cons c cs ih =>
    intro acc
    simp only [List.foldl_cons, List.length_cons]
    calc cs.foldl (fun a c => a * 2 + (if c = '1' then 1 else 0))
          (acc * 2 + (if c = '1' then 1 else 0))
        < (acc * 2 + (if c = '1' then 1 else 0) + 1) * 2 ^ cs.length := ih _
      _ ≤ ((acc + 1) * 2) * 2 ^ cs.length :=
          mul_le_mul_right' (by split <;> omega) _
      _ = (acc + 1) * 2 ^ (cs.length + 1) := by ring

/-- A binary-digit string of length n has value below 2 ^ n. -/
theorem binNat_lt_two_pow (bs : List Char) : binNat bs < 2 ^ bs.length := by
  have := foldl_bin_lt bs 0
  simpa [binNat] using this

/-- A comma-free token is returned whole by the `strsep` loop. -/
theorem strsep_split_no_comma (bs : List Char) (h : ∀ c ∈ bs, c ≠ ',') :
    strsep_split bs = [bs] := by
  induction bs with
  | nil => rfl
  | cons c cs ih =>
    rw [strsep_split, if_neg (h c (List.mem_cons_self c cs)),
      ih (fun x hx => h x (List.mem_cons_of_mem _ hx))]

/-- Tokenization of `"Pug,4," ++ bs` for a comma-free `bs`. -/
theorem strsep_split_pug (bs : List Char) (h : ∀ c ∈ bs, c ≠ ',') :
    strsep_split ("Pug,4,".data ++ bs) = ["Pug".data, "4".data, bs] := by
  have h1 := strsep_split_no_comma bs h
  have h2 : strsep_split (',' :: bs) = [[], bs] := by
    rw [strsep_split, if_pos rfl, h1]
  have h3 : strsep_split ('4' :: ',' :: bs) = [['4'], bs] := by
    rw [strsep_split, if_neg (by decide), h2]
  have h4 : strsep_split (',' :: '4' :: ',' :: bs) = [[], ['4'], bs] := by
    rw [strsep_split, if_pos rfl, h3]
  have h5 : strsep_split ('g' :: ',' :: '4' :: ',' :: bs)
      = [['g'], ['4'], bs] := by
    rw [strsep_split, if_neg (by decide), h4]
  have h6 : strsep_split ('u' :: 'g' :: ',' :: '4' :: ',' :: bs)
      = [['u', 'g'], ['4'], bs] := by
    rw [strsep_split, if_neg (by decide), h5]
  show strsep_split ('P' :: 'u' :: 'g' :: ',' :: '4' :: ',' :: bs) = _
  rw [strsep_split, if_neg (by decide), h6]

/-- `kstrtoint` in base 2 accepts a binary digit string of any length
(not just a single 0 or 1) and returns its value, provided the value
fits in a 32-bit int. -/
theorem kstrtoint_binary (bs : List Char) (hne : bs ≠ [])
    (hbin : ∀ c ∈ bs, c = '0' ∨ c = '1') (hval : binNat bs < 2 ^ 31) :
    kstrtoint 2 bs = .ok (binNat bs) := by
  obtain ⟨c, cs, rfl⟩ : ∃ c cs, bs = c :: cs := by
    cases bs with
    | nil => exact absurd rfl hne
    | cons c cs => exact ⟨c, cs, rfl⟩
  have hc := hbin c (List.mem_cons_self c cs)
  have hdig : ∀ x ∈ c :: cs, digitVal x < 2 := by
    intro x hx
    rcases hbin x hx with rfl | rfl <;> decide
  have hplus : skipPlus (c :: cs) = c :: cs := by
    rw [skipPlus, if_neg]
    intro hcon
    rcases hc with rfl | rfl <;> simp at hcon
  have hminus : ¬ ((c :: cs).head? = some '-') := by
    intro hcon
    rcases hc with rfl | rfl <;> simp at hcon
  have hparse := parseDigits_all 2 (c :: cs) hdig 0 0
  have hfold : (c :: cs).foldl (fun a x => a * 2 + digitVal x) 0
      = binNat (c :: cs) := foldl_digit_eq_bin (c :: cs) hbin 0
  rw [hfold] at hparse
  have h64 : ¬ (2 ^ 64 ≤ binNat (c :: cs)) := by
    have h1 : (2 : Nat) ^ 31 ≤ 2 ^ 64 := Nat.pow_le_pow_right (by norm_num) (by norm_num)
    omega
  have hull : kstrtoull 2 (c :: cs) = .ok (binNat (c :: cs)) := by
    simp only [kstrtoull, hplus, hparse]
    rw [if_neg h64, if_neg (by simp)]
    rfl
  have h63 : ¬ (2 ^ 63 ≤ binNat (c :: cs)) := by
    have h1 : (2 : Nat) ^ 31 ≤ 2 ^ 63 := Nat.pow_le_pow_right (by norm_num) (by norm_num)
    omega
  have hll : kstrtoll 2 (c :: cs) = .ok ((binNat (c :: cs) : Int)) := by
    rw [kstrtoll, if_neg hminus, hull]
    simp only []
    rw [if_neg h63]
  have hrange : ¬ ((binNat (c :: cs) : Int) < -(2 ^ 31) ∨
      2 ^ 31 - 1 < (binNat (c :: cs) : Int)) := by
    have h0 : (0 : Int) ≤ (binNat (c :: cs) : Int) := Int.natCast_nonneg _
    have hv : (binNat (c :: cs) : Int) < 2 ^ 31 := by exact_mod_cast hval
    have e1 : (2 : Int) ^ 31 = 2147483648 := by norm_num
    rw [e1] at hv
    intro hcon
    rcases hcon with h1 | h2
    · rw [e1] at h1; omega
    · rw [e1] at h2; omega
  rw [kstrtoint, hll]
  simp only []
  rw [if_neg hrange]

/-- C10: the training flag is parsed with `kstrtoint(dog_attr[2], 2, ...)`
— a base-2 integer of any length, not just the single digits 0 and 1 —
and the entry stores `true` exactly when the parsed value is nonzero:
for every comma-free binary digit string `bs` of at most 31 digits, the
store of `"Pug,4," ++ bs` succeeds and records
`training_easy = (value of bs ≠ 0)`. -/
theorem store_training_flag_base2 (bs : List Char) (count : Nat) (s : ModState)
    (hne : bs ≠ []) (hbin : ∀ c ∈ bs, c = '0' ∨ c = '1')
    (hlen : bs.length ≤ 31) :
    dog_attr_store ("Pug,4,".data ++ bs) count s
      = (.ok count,
         { s with
             dog_list := s.dog_list ++
               [{ breed := "Pug".data, age := 4,
                  training_easy := decide (binNat bs ≠ 0) }],
             dog_list_size := s.dog_list_size + 1 }) := by
  have hnc : ∀ c ∈ bs, c ≠ ',' := by
    intro c hc
    rcases hbin c hc with rfl | rfl <;> decide
  have hval : binNat bs < 2 ^ 31 :=
    lt_of_lt_of_le (binNat_lt_two_pow bs)
      (Nat.pow_le_pow_right (by norm_num) hlen)
  have htok := strsep_split_pug bs hnc
  have htake : ("Pug,4,".data ++ bs).take 64 = "Pug,4,".data ++ bs := by
    apply List.take_of_length_le
    have : ("Pug,4,".data ++ bs).length = 6 + bs.length := by
      simp [List.length_append]
      omega
    omega
  have h2 := kstrtoint_binary bs hne hbin hval
  have h4 : kstrtoint 10 "4".data = .ok 4 := by decide
  have hcast : (decide ((binNat bs : Int) ≠ 0)) = decide (binNat bs ≠ 0) := by
    simp
  have hparse : dog_parse ("Pug,4,".data ++ bs)
      = .ok { breed := "Pug".data, age := 4,
              training_easy := decide (binNat bs ≠ 0) } := by
    simp only [dog_parse, kstrndup, DOG_ENTRY_NBYTES, htake, htok]
    simp [h2, h4, hcast]
  unfold dog_attr_store
  rw [hparse]

/-- Witness for C10: the multi-digit binary flag `"10"` (value 2) is
accepted and stored as `true`. -/
theorem store_training_flag_base2_witness :
    dog_attr_store ("Pug,4,".data ++ "10".data) 8 initState
      = (.ok 8,
         { initState with
             dog_list := initState.dog_list ++
               [{ breed := "Pug".data, age := 4,
                  training_easy := decide (binNat "10".data ≠ 0) }],
             dog_list_size := initState.dog_list_size + 1 }) :=
  store_training_flag_base2 "10".data 8 initState (by decide) (by decide)
    (by decide)

/-- Witness for C8's amended statement: on the singleton list holding
the Golden entry all lines fit, and the show return value equals the
bytes written. -/
theorem show_concat_lines_witness :
    dog_attr_show [goldenDog] = showBytesWritten [goldenDog] :=
  (show_concat_lines [goldenDog] (by decide)).2.2
